import Mathlib

/-!
# Verification of the rustis RESP core

A shallow embedding of the RESP frame decoder (`src/resp/value_decoder.rs`),
the transaction result extraction (`src/client/transaction.rs`) and the
pub/sub stream (`src/client/pub_sub_stream.rs`), together with theorems
settling the specification claims about them.

Byte buffers (`BytesMut`) are modelled as `List Nat` of byte values.
`i64` arithmetic is modelled exactly over `Int`; the only place where the
source relies on machine-width behaviour is the `len as usize` cast in
`decode_bulk_string` / `decode_array`, which is modelled explicitly modulo
`2 ^ 64` (release-mode wrapping semantics; debug builds panic earlier, on
the `len as usize + 2` overflow, for exactly the same inputs).
-/

namespace Rustis

/-- Bytes of an ASCII string literal, used to write concrete frames. -/
def strBytes (s : String) : List Nat := s.data.map Char.toNat

/-- The payload of `Error::Parse(format!(...))` messages in
`value_decoder.rs`, modelled structurally instead of as a formatted
`String`: each constructor corresponds to one `format!` call site and
carries the bytes interpolated into it. -/
inductive ParseMsg where
  /-- `"Unknown data type '{}' (0x{:02x})"` (`decode`, line 36). -/
  | unknownDataType (b : Nat)
  /-- `"Expected \r\n after bulk string. Got '{}''{}'"` (line 52). -/
  | bulkMissingCrlf (b1 b2 : Nat)
  /-- `"Unexpected byte {}"` (`decode_string` line 106, `decode_integer` line 131). -/
  | unexpectedByte (b : Nat)
deriving DecidableEq, Repr

/-- The `Error` enum of the crate, restricted to the variants the embedded
code constructs.  `redis` carries the raw bytes of the server error frame,
`client` the literal message string. -/
inductive RError where
  | parse (m : ParseMsg)
  | redis (e : List Nat)
  | aborted
  | client (msg : String)
  /-- Modelled from the spec: failure of a `FromValue` conversion on a
  value of the wrong shape (spec section 9: conversion to domain types
  fails with `WrongType` on mismatch).  The concrete conversion code is
  not part of the sources. -/
  | wrongType
deriving DecidableEq, Repr

/-- Outcome of running a fallible piece of the Rust code:
`ok` for `Ok(...)`, `fail` for `Err(...)`, `panicked` for a Rust panic
(index out of bounds, slice out of range, capacity overflow), and
`fuelOut` is the artefact of the fuelled embedding of the recursive
decoder and never escapes the wrappers that supply sufficient fuel. -/
inductive ROut (α : Type) where
  | ok (val : α)
  | fail (e : RError)
  | panicked
  | fuelOut
deriving DecidableEq, Repr

/-- The `BulkString` payload enum: `Nil` or `Binary(Vec<u8>)`. -/
inductive BulkStringV where
  | nil
  | binary (bytes : List Nat)
deriving DecidableEq, Repr

/-- The `Value` enum, restricted to the variants the embedded code
constructs or matches.  `simpleString` and `error` carry the raw payload
bytes (`String::from_utf8_lossy` is modelled as the identity on the byte
sequence; every payload in this development is ASCII, where the two
coincide).  The `Array` wrapper's only constructor appearing in the
sources is `Array::Vec`, so `array` carries the element list directly. -/
inductive Value where
  | simpleString (s : List Nat)
  | error (e : List Nat)
  | integer (i : Int)
  | bulkString (bs : BulkStringV)
  | array (values : List Value)
  | nil
deriving Repr



/-! ## `decode_integer` (value_decoder.rs lines 115-138)

The `while` loop is embedded as `decodeIntegerGo` with the mutable state
(`pos`, `is_negative`, `i`, `cr`) as arguments and an explicit fuel that
counts loop iterations; `decode_integer` supplies fuel `buf.length + 1`,
which is more than the loop can ever run. -/

def decodeIntegerGo : Nat → List Nat → Nat → Bool → Int → Bool → ROut (Option (Int × Nat))
  | 0, _, _, _, _, _ => .fuelOut
  | fuel + 1, buf, pos, neg, i, cr =>
    if h : pos < buf.length then
      let byte := buf[pos]
      if cr = false ∧ neg = false ∧ byte = 45 then
        decodeIntegerGo fuel buf (pos + 1) true i false
      else if cr = false ∧ neg = false ∧ 48 ≤ byte ∧ byte ≤ 57 then
        decodeIntegerGo fuel buf (pos + 1) false (i * 10 + Int.ofNat (byte - 48)) false
      else if cr = false ∧ neg = true ∧ 48 ≤ byte ∧ byte ≤ 57 then
        decodeIntegerGo fuel buf (pos + 1) true (i * 10 - Int.ofNat (byte - 48)) false
      else if cr = false ∧ byte = 13 then
        decodeIntegerGo fuel buf (pos + 1) neg i true
      else if cr = true ∧ byte = 10 then
        .ok (some (i, pos + 1))
      else
        .fail (.parse (.unexpectedByte byte))
    else
      .ok none

def decode_integer (buf : List Nat) (idx : Nat) : ROut (Option (Int × Nat)) :=
  decodeIntegerGo (buf.length + 1) buf idx false 0 false

/-! ## `decode_string` (value_decoder.rs lines 89-113) -/

def decodeStringGo : Nat → List Nat → Nat → Nat → Bool → ROut (Option (List Nat × Nat))
  | 0, _, _, _, _ => .fuelOut
  | fuel + 1, buf, idx, pos, cr =>
    if h : pos < buf.length then
      let byte := buf[pos]
      if cr = false ∧ byte = 13 then
        decodeStringGo fuel buf idx (pos + 1) true
      else if cr = true ∧ byte = 10 then
        .ok (some ((buf.take (pos - 1)).drop idx, pos + 1))
      else if cr = false then
        decodeStringGo fuel buf idx (pos + 1) false
      else
        .fail (.parse (.unexpectedByte byte))
    else
      .ok none

def decode_string (buf : List Nat) (idx : Nat) : ROut (Option (List Nat × Nat)) :=
  decodeStringGo (buf.length + 1) buf idx idx false

/-! ## `decode_bulk_string` (value_decoder.rs lines 43-66) -/

/-- `2 ^ 64`, the modulus of `usize` arithmetic on a 64-bit target. -/
def u64Mod : Nat := 2 ^ 64

/-- The `len as usize` cast of an `i64` length. -/
def toUsize (i : Int) : Nat := (i % (u64Mod : Int)).toNat

def decode_bulk_string (buf : List Nat) (idx : Nat) : ROut (Option (BulkStringV × Nat)) :=
  match decode_integer buf idx with
  | .ok none => .ok none
  | .ok (some (len, pos)) =>
    if len = -1 then .ok (some (.nil, pos))
    else
      let lenUs := toUsize len
      -- `buf.len() - pos < len as usize + 2`; the addition wraps modulo 2^64
      if buf.length - pos < (lenUs + 2) % u64Mod then
        .ok none -- EOF
      else
        -- `pos + len as usize`, again wrapping
        let i1 := (pos + lenUs) % u64Mod
        if hb : i1 + 1 < buf.length then
          if buf[i1] ≠ 13 ∨ buf[i1 + 1] ≠ 10 then
            .fail (.parse (.bulkMissingCrlf buf[i1] buf[i1 + 1]))
          else if pos ≤ i1 then
            .ok (some (.binary ((buf.take i1).drop pos), i1 + 2))
          else
            .panicked -- `buf[pos..pos + len as usize]` with start beyond end
        else
          .panicked -- `buf[pos + len as usize]` / `+ 1` out of bounds
  | .fail e => .fail e
  | .panicked => .panicked
  | .fuelOut => .fuelOut

/-! ## `decode` and `decode_array` (value_decoder.rs lines 22-41 and 68-87)

`decode` recurses into itself through `decode_array`'s element loop.  The
embedding makes the recursion structural on a fuel argument that bounds
the array nesting depth only: `decodeListGo` embeds the `for _ in 0..len`
loop, taking the recursive decoder as the function argument `d`, and
`decodeArrayGo` embeds `decode_array` parameterised the same way.
`decode` supplies fuel `buf.length + 1`, which exceeds any reachable
nesting depth (each nesting level consumes at least one byte of header
before recursing). -/

def decodeListGo (d : List Nat → Nat → ROut (Option (Value × Nat))) (buf : List Nat) :
    Nat → Nat → ROut (Option (List Value × Nat))
  | pos, 0 => .ok (some ([], pos))
  | pos, count + 1 =>
    match d buf pos with
    | .ok none => .ok none
    | .ok (some (value, newPos)) =>
      match decodeListGo d buf newPos count with
      | .ok (some (values, p)) => .ok (some (value :: values, p))
      | .ok none => .ok none
      | .fail e => .fail e
      | .panicked => .panicked
      | .fuelOut => .fuelOut
    | .fail e => .fail e
    | .panicked => .panicked
    | .fuelOut => .fuelOut

/-- `Vec::with_capacity(len as usize)` panics with a capacity overflow when
the requested capacity times `size_of::<Value>()` exceeds `isize::MAX`.
`size_of::<Value>()` is at least 8 on a 64-bit target (the enum holds a
`String`); the embedding uses 8, which classifies every capacity from a
negative `i64` length (at least `2 ^ 63`) as overflowing, exactly as the
code does.  Larger positive thresholds differ from the real size only for
capacities beyond `2 ^ 60`, which no physically representable buffer can
make the decoder reach. -/
def capacityOverflows (c : Nat) : Bool := decide (2 ^ 63 - 1 < c * 8)

def decodeArrayGo (d : List Nat → Nat → ROut (Option (Value × Nat)))
    (buf : List Nat) (idx : Nat) : ROut (Option (List Value × Nat)) :=
  match decode_integer buf idx with
  | .ok none => .ok none
  | .ok (some (len, pos)) =>
    if len = -1 then .ok (some ([], pos))
    else if capacityOverflows (toUsize len) then .panicked
    else decodeListGo d buf pos len.toNat -- `for _ in 0..len` runs `len` times (0 if negative)
  | .fail e => .fail e
  | .panicked => .panicked
  | .fuelOut => .fuelOut

def decodeF : Nat → List Nat → Nat → ROut (Option (Value × Nat))
  | 0, _, _ => .fuelOut
  | fuel + 1, buf, idx =>
    if h : buf.length ≤ idx then .ok none
    else
      have hidx : idx < buf.length := by omega
      match buf[idx] with
      | 36 => -- b'$'
        match decode_bulk_string buf (idx + 1) with
        | .ok (some (bs, pos)) => .ok (some (.bulkString bs, pos))
        | .ok none => .ok none
        | .fail e => .fail e
        | .panicked => .panicked
        | .fuelOut => .fuelOut
      | 42 => -- b'*'
        match decodeArrayGo (fun b p => decodeF fuel b p) buf (idx + 1) with
        | .ok (some (vs, pos)) => .ok (some (.array vs, pos))
        | .ok none => .ok none
        | .fail e => .fail e
        | .panicked => .panicked
        | .fuelOut => .fuelOut
      | 58 => -- b':'
        match decode_integer buf (idx + 1) with
        | .ok (some (i, pos)) => .ok (some (.integer i, pos))
        | .ok none => .ok none
        | .fail e => .fail e
        | .panicked => .panicked
        | .fuelOut => .fuelOut
      | 43 => -- b'+'
        match decode_string buf (idx + 1) with
        | .ok (some (s, pos)) => .ok (some (.simpleString s, pos))
        | .ok none => .ok none
        | .fail e => .fail e
        | .panicked => .panicked
        | .fuelOut => .fuelOut
      | 45 => -- b'-'
        match decode_string buf (idx + 1) with
        | .ok (some (s, pos)) => .ok (some (.error s, pos))
        | .ok none => .ok none
        | .fail e => .fail e
        | .panicked => .panicked
        | .fuelOut => .fuelOut
      | b => .fail (.parse (.unknownDataType b))

/-- The free function `decode(buf, idx)` of value_decoder.rs. -/
def decode (buf : List Nat) (idx : Nat) : ROut (Option (Value × Nat)) :=
  decodeF (buf.length + 1) buf idx

/-- `<ValueDecoder as Decoder>::decode` (lines 14-19): runs `decode` at
index 0 and advances the buffer by the consumed byte count on success.
Returns the call's result together with the buffer left behind. -/
def ValueDecoder.decode (buf : List Nat) : ROut (Option Value) × List Nat :=
  match Rustis.decode buf 0 with
  | .ok (some (item, pos)) => (.ok (some item), buf.drop pos)
  | .ok none => (.ok none, buf)
  | .fail e => (.fail e, buf)
  | .panicked => (.panicked, buf)
  | .fuelOut => (.fuelOut, buf)

example : decode (strBytes "+OK\r\n") 0 = .ok (some (.simpleString (strBytes "OK"), 5)) := rfl

example : decode (strBytes "*2\r\n:12\r\n:13\r\n") 0 =
    .ok (some (.array [.integer 12, .integer 13], 14)) := rfl

example : decode (strBytes "$-2\r\n") 0 = .panicked := rfl

example : decode (strBytes ":1-2\r\n") 0 = .ok (some (.integer 8, 6)) := rfl

/-! ## Decoder claims settled by concrete evaluation -/

/-- C5: feeding the exact bytes `+OK\r\n` to the decoder yields
`SimpleString("OK")` and consumes exactly 5 bytes (the whole buffer is
advanced away); feeding `+OK\r` yields `NeedMoreData` (`Ok(None)`) and
consumes 0 bytes (the buffer is returned untouched). -/
theorem simple_string_ok_consumes_five :
    decode (strBytes "+OK\r\n") 0 = .ok (some (.simpleString (strBytes "OK"), 5)) ∧
    ValueDecoder.decode (strBytes "+OK\r\n") = (.ok (some (.simpleString (strBytes "OK"))), []) ∧
    ValueDecoder.decode (strBytes "+OK\r") = (.ok none, strBytes "+OK\r") :=
  ⟨rfl, rfl, rfl⟩

/-- C2: the decoder does NOT handle the RESP3 prefixes `,#_%~>`.  For each
of the six prefixes, feeding the well-formed frame taken from the crate's
own test-suite (`src/tests/value_decoder.rs`) makes `decode` fail with the
`Unknown data type` parse error instead of succeeding.  This contradicts
both the spec and the tests, which expect these frames to decode. -/
theorem resp3_prefixes_rejected :
    decode (strBytes ",12.12\r\n") 0 = .fail (.parse (.unknownDataType 44)) ∧
    decode (strBytes "#t\r\n") 0 = .fail (.parse (.unknownDataType 35)) ∧
    decode (strBytes "_\r\n") 0 = .fail (.parse (.unknownDataType 95)) ∧
    decode (strBytes "%2\r\n$2\r\nid\r\n:12\r\n$4\r\nname\r\n$4\r\nMike\r\n") 0 =
      .fail (.parse (.unknownDataType 37)) ∧
    decode (strBytes "~2\r\n:12\r\n:13\r\n") 0 = .fail (.parse (.unknownDataType 126)) ∧
    decode (strBytes ">3\r\n$7\r\nmessage\r\n$7\r\nchannel\r\n$7\r\npayload\r\n") 0 =
      .fail (.parse (.unknownDataType 62)) :=
  ⟨rfl, rfl, rfl, rfl, rfl, rfl⟩

/-- C3: a length of `-1` decodes to the null bulk string, but a negative
length other than `-1` does NOT produce a parse `Error`: `$-2\r\n` makes
the decoder panic (the wrapping `len as usize` cast sends the slice
`buf[pos..pos + len as usize]` out of range; debug builds already overflow
on `len as usize + 2`), and `*-2\r\n` panics in `Vec::with_capacity`
(capacity overflow). -/
theorem negative_length_panics :
    decode (strBytes "$-1\r\n") 0 = .ok (some (.bulkString .nil, 5)) ∧
    decode (strBytes "$-2\r\n") 0 = .panicked ∧
    decode (strBytes "*-2\r\n") 0 = .panicked :=
  ⟨rfl, rfl, rfl⟩

/-- C6: an inbound error frame is NOT split on the first space: the
decoder produces `Value::Error` carrying the entire payload `ERR error`
as one undivided string (`decode`, line 35, reuses `decode_string`),
whereas the spec and the crate's test-suite expect a separate kind and
description. -/
theorem error_frame_undivided :
    decode (strBytes "-ERR error\r\n") 0 = .ok (some (.error (strBytes "ERR error"), 12)) :=
  rfl

/-- C4 counterexample: `:1-2\r\n` contains a `-` after a digit, which the
claim says must be a parse `Error`; the decoder instead accepts it and
returns `Integer(8)` (the `is_negative` flag is set mid-number and the
remaining digits are subtracted). -/
theorem integer_minus_after_digit_accepted :
    decode (strBytes ":1-2\r\n") 0 = .ok (some (.integer 8, 6)) :=
  rfl


/-! ## `Transaction` (transaction.rs lines 26-97)

The command payloads are irrelevant to the claims (only their count and
their forget flags matter), so a command is modelled as its name.  The
`send_batch` call and the `FromValue` conversion of its reply into
`Vec<Value>` happen outside the embedded sources; `execute` therefore
takes the deserialized reply list as its `values` argument, and the
result type parameter `T` is instantiated at `Value`. -/

structure Transaction where
  commands : List String
  forgetFlags : List Bool
deriving Repr

/-- `Transaction::queue` (lines 45-48). -/
def Transaction.queue (t : Transaction) (command : String) : Transaction :=
  { commands := t.commands ++ [command], forgetFlags := t.forgetFlags ++ [false] }

/-- `Transaction::forget` (lines 50-54). -/
def Transaction.forget (t : Transaction) (command : String) : Transaction :=
  { commands := t.commands ++ [command], forgetFlags := t.forgetFlags ++ [true] }

/-- `Transaction::new` (lines 33-42): starts empty, then queues `MULTI`. -/
def Transaction.new : Transaction :=
  Transaction.queue { commands := [], forgetFlags := [] } "MULTI"

/-- The `for _ in 0..num_commands - 1` loop of `execute` (lines 65-69):
advance the iterator `count` times, failing with the first server error
encountered; a `None` from the iterator matches nothing and the loop
continues.  Returns the remaining iterator contents. -/
def checkLeading : Nat → List Value → Except RError (List Value)
  | 0, values => .ok values
  | count + 1, [] => checkLeading count []
  | _ + 1, .error e :: _ => .error (.redis e)
  | count + 1, _ :: rest => checkLeading count rest

/-- Modelled from the spec: for the single surviving result, the source
runs `Ok(value).into_result()?.into()` (line 83); `ResultValueExt` and the
`FromValue` conversion are not part of the embedded sources, and spec
section 4.6 says the surviving result is returned to the caller. -/
def intoResultSpec (value : Value) : Except RError Value := .ok value

/-- `Transaction::execute` (lines 56-96) after the `send_batch` call:
`values` is the deserialized batch reply. -/
def Transaction.execute (t : Transaction) (values : List Value) : Except RError Value :=
  let t1 := t.queue "EXEC"
  let numCommands := t1.commands.length
  match checkLeading (numCommands - 1) values with
  | .error e => .error e
  | .ok rest =>
    match rest with
    | [] => .error (.client "Unexpected result for transaction")
    | result :: _ =>
      match result with
      | .array results =>
        let filtered := (results.zip (t1.forgetFlags.drop 1)).filterMap
          (fun p => if p.2 then none else some p.1)
        if h : filtered.length = 1 then
          -- `filtered_results.pop().unwrap()` takes the (only) last element
          intoResultSpec (filtered.getLast (by intro hc; rw [hc] at h; exact absurd h (by simp)))
        else
          .ok (.array filtered)
      | .nil => .error .aborted
      | _ => .error (.client "Unexpected transaction reply")

/-- The spec's description of result extraction, stated independently of
the source: zip the results with the per-command forget flags and keep the
results whose flag is false. -/
def specSurvivors (results : List Value) (userFlags : List Bool) : List Value :=
  ((results.zip userFlags).filter (fun p => !p.2)).map Prod.fst

/-- The spec's returned value: the single survivor if exactly one remains,
otherwise the array of survivors in order. -/
def specTransactionResult (results : List Value) (userFlags : List Bool) : Value :=
  match specSurvivors results userFlags with
  | [v] => v
  | vs => .array vs

/-- The first server error among a reply list. -/
def firstError (l : List Value) : Option (List Nat) :=
  l.findSome? (fun v => match v with | .error e => some e | _ => none)

theorem firstError_cons_of_not_error {v : Value} (l : List Value)
    (hv : ∀ e, v ≠ .error e) : firstError (v :: l) = firstError l := by
  cases v with
  | error e => exact absurd rfl (hv e)
  | simpleString s => rfl
  | integer i => rfl
  | bulkString bs => rfl
  | array vs => rfl
  | nil => rfl

theorem checkLeading_spec (leading rest : List Value) :
    checkLeading leading.length (leading ++ rest) =
      match firstError leading with
      | some e => .error (.redis e)
      | none => .ok rest := by
  induction leading with
  | nil => rfl
  | cons v l ih =>
    cases v with
    | error e => rfl
    | simpleString s => simpa [checkLeading, firstError] using ih
    | integer i => simpa [checkLeading, firstError] using ih
    | bulkString bs => simpa [checkLeading, firstError] using ih
    | array vs => simpa [checkLeading, firstError] using ih
    | nil => simpa [checkLeading, firstError] using ih

theorem zip_append_right_of_length_le {α β : Type} (l1 : List α) (l2 l3 : List β)
    (h : l1.length ≤ l2.length) : l1.zip (l2 ++ l3) = l1.zip l2 := by
  induction l1 generalizing l2 with
  | nil => simp
  | cons a l ih =>
    cases l2 with
    | nil => simp at h
    | cons b l2 =>
      simp only [List.cons_append, List.zip_cons_cons, List.cons.injEq, true_and]
      exact ih l2 (by simpa using h)

theorem filterMap_keep_eq_filter_map {α : Type} (l : List (α × Bool)) :
    l.filterMap (fun p => if p.2 then none else some p.1) =
      (l.filter (fun p => !p.2)).map Prod.fst := by
  induction l with
  | nil => rfl
  | cons p l ih =>
    rcases p with ⟨a, b⟩
    cases b <;> simp [List.filterMap_cons, List.filter_cons, ih]

theorem getLast_of_eq_singleton {α : Type} {l : List α} {v : α} (h : l = [v]) (hne : l ≠ []) :
    l.getLast hne = v := by
  subst h; rfl

theorem firstError_eq_none (l : List Value) (h : ∀ v ∈ l, ∀ e, v ≠ .error e) :
    firstError l = none := by
  induction l with
  | nil => rfl
  | cons v l ih =>
    rw [firstError_cons_of_not_error l (h v (by simp))]
    exact ih (fun w hw => h w (by simp [hw]))

/-- C7: when the EXEC reply is an `Array`, `Transaction::execute` zips its
elements with the per-command forget flags (skipping the flag recorded for
`MULTI`), drops every element whose flag is true, and returns the single
surviving value when exactly one remains, otherwise the array of the
surviving values in order.  `uf` is the list of user-command forget flags
(after the leading `false` recorded for `MULTI`); the reply consists of
the `MULTI`/`QUEUED` acknowledgements `leading` (none of them a server
error) followed by the EXEC array. -/
theorem execute_filters_forgotten (t : Transaction) (uf : List Bool)
    (leading results : List Value)
    (hflags : t.forgetFlags = false :: uf)
    (hlead : leading.length = t.commands.length)
    (hnoerr : ∀ v ∈ leading, ∀ e, v ≠ .error e)
    (hres : results.length = uf.length) :
    t.execute (leading ++ [.array results]) = .ok (specTransactionResult results uf) := by
  have hc : (t.queue "EXEC").commands.length - 1 = leading.length := by
    simp [Transaction.queue, hlead]
  have h3 : (results.zip ((t.queue "EXEC").forgetFlags.drop 1)).filterMap
      (fun p => if p.2 then none else some p.1) = specSurvivors results uf := by
    have h2 : (t.queue "EXEC").forgetFlags.drop 1 = uf ++ [false] := by
      simp [Transaction.queue, hflags]
    rw [h2, zip_append_right_of_length_le results uf [false] (le_of_eq hres),
      filterMap_keep_eq_filter_map]
    rfl
  simp only [Transaction.execute, hc, checkLeading_spec, firstError_eq_none leading hnoerr]
  split
  · next h1 =>
    rcases List.length_eq_one.mp h1 with ⟨v, hv⟩
    have hv2 : specSurvivors results uf = [v] := h3.symm.trans hv
    rw [getLast_of_eq_singleton hv]
    simp [specTransactionResult, hv2, intoResultSpec]
  · next h1 =>
    rw [h3] at h1 ⊢
    simp only [specTransactionResult]
    rcases hs : specSurvivors results uf with _ | ⟨v, _ | ⟨w, rest⟩⟩
    · rfl
    · exact absurd (by rw [hs]; rfl) h1
    · rfl

/-- C7 witness: queuing `SET k v` with forget then `GET k` and executing
against the reply `[+OK, +QUEUED, +QUEUED, Array([SimpleString("OK"),
BulkString("v")])]` returns just `BulkString("v")`. -/
theorem execute_filters_forgotten_witness :
    ((Transaction.new.forget "SET").queue "GET").execute
        [.simpleString (strBytes "OK"), .simpleString (strBytes "QUEUED"),
          .simpleString (strBytes "QUEUED"),
          .array [.simpleString (strBytes "OK"), .bulkString (.binary (strBytes "v"))]] =
      .ok (.bulkString (.binary (strBytes "v"))) := by
  have h := execute_filters_forgotten ((Transaction.new.forget "SET").queue "GET")
    [true, false]
    [.simpleString (strBytes "OK"), .simpleString (strBytes "QUEUED"),
      .simpleString (strBytes "QUEUED")]
    [.simpleString (strBytes "OK"), .bulkString (.binary (strBytes "v"))]
    rfl rfl
    (by
      intro v hv e
      simp only [List.mem_cons, List.not_mem_nil, or_false] at hv
      rcases hv with rfl | rfl | rfl <;> exact fun hc => by cases hc)
    rfl
  exact h.trans rfl

/-- C8: with a reply of the protocol shape (one entry per command), 
`Transaction::execute` fails in exactly these cases: a server error among
the leading `num_commands - 1` responses is returned as that error; a
`Nil` EXEC reply fails with `Aborted`; an EXEC reply that is neither `Nil`
nor an `Array` fails with the client error `Unexpected transaction
reply`; and when the EXEC reply is an `Array` (and no leading error),
`execute` succeeds. -/
theorem execute_failure_cases (t : Transaction) (leading : List Value) (reply : Value)
    (hlead : leading.length = t.commands.length) :
    (∀ e, firstError leading = some e →
      t.execute (leading ++ [reply]) = .error (.redis e)) ∧
    (firstError leading = none → reply = .nil →
      t.execute (leading ++ [reply]) = .error .aborted) ∧
    (firstError leading = none → reply ≠ .nil → (∀ rs, reply ≠ .array rs) →
      t.execute (leading ++ [reply]) = .error (.client "Unexpected transaction reply")) ∧
    (firstError leading = none → ∀ rs, reply = .array rs →
      ∃ v, t.execute (leading ++ [reply]) = .ok v) := by
  have hc : (t.queue "EXEC").commands.length - 1 = leading.length := by
    simp [Transaction.queue, hlead]
  refine ⟨?_, ?_, ?_, ?_⟩
  · intro e he
    simp [Transaction.execute, hc, checkLeading_spec, he]
  · rintro hne rfl
    simp [Transaction.execute, hc, checkLeading_spec, hne]
  · intro hne hnil harr
    -- with `reply ≠ Nil` and `reply` not an array in context, the
    -- catch-all arm of the match on the EXEC reply applies
    simp only [Transaction.execute, hc, checkLeading_spec, hne]
  · rintro hne rs rfl
    simp only [Transaction.execute, hc, checkLeading_spec, hne]
    split
    · exact ⟨_, rfl⟩
    · exact ⟨_, rfl⟩

/-- C8 witness: a transaction whose `MULTI` acknowledgement is the server
error `ERR boom` fails with exactly that error. -/
theorem execute_failure_cases_witness :
    Transaction.new.execute [.error (strBytes "ERR boom"), .nil] =
      .error (.redis (strBytes "ERR boom")) :=
  (execute_failure_cases Transaction.new [.error (strBytes "ERR boom")] .nil rfl).1
    (strBytes "ERR boom") rfl

/-! ## `PubSubStream` (pub_sub_stream.rs)

The stream's receiver and its back-reference to the client are external
collaborators: the outcomes of the client's `unsubscribe` /
`punsubscribe` / `sunsubscribe` calls and the receiver's poll result are
passed to `close` and `poll_next` as arguments. -/

/-- `PubSubMessage` (lines 14-18). -/
structure PubSubMessage where
  pattern : Value
  channel : Value
  payload : Value
deriving Repr

/-- `PubSubMessage::from_message` (lines 21-27): no pattern, stored as `Nil`. -/
def PubSubMessage.from_message (channel payload : Value) : PubSubMessage :=
  { pattern := .nil, channel := channel, payload := payload }

/-- `PubSubMessage::from_pmessage` (lines 29-35). -/
def PubSubMessage.from_pmessage (pattern channel payload : Value) : PubSubMessage :=
  { pattern := pattern, channel := channel, payload := payload }

/-- The state of `PubSubStream` (lines 97-104) without its receiver and
client handles. -/
structure PubSubStream where
  closed : Bool
  channels : List String
  patterns : List String
  shardchannels : List String
deriving Repr

/-- `PubSubStream::close` (lines 152-174).  Each name list is swapped out
before the corresponding unsubscribe call, whose outcome is the argument
`runsub` / `rpunsub` / `rsunsub` (skipped when the list is empty); an
error propagates before `closed` is set.  Returns the call result and the
stream state left behind. -/
def PubSubStream.close (s : PubSubStream) (runsub rpunsub rsunsub : Except RError Unit) :
    Except RError Unit × PubSubStream :=
  let s1 : PubSubStream := { s with channels := [] }
  match (if s.channels.isEmpty then .ok () else runsub : Except RError Unit) with
  | .error e => (.error e, s1)
  | .ok _ =>
    let s2 : PubSubStream := { s1 with patterns := [] }
    match (if s.patterns.isEmpty then .ok () else rpunsub : Except RError Unit) with
    | .error e => (.error e, s2)
    | .ok _ =>
      let s3 : PubSubStream := { s2 with shardchannels := [] }
      match (if s.shardchannels.isEmpty then .ok () else rsunsub : Except RError Unit) with
      | .error e => (.error e, s3)
      | .ok _ => (.ok (), { s3 with closed := true })

/-- Modelled from the spec: `let parts: Vec<Value> = message.into()?`
uses the `FromValue` conversion from `Value` to `Vec<Value>`, which is
not part of the embedded sources; spec section 9 says conversion to a
domain type is a projection that fails with `WrongType` on mismatch, so a
non-array value fails with that error. -/
def fromValueVec : Value → Except RError (List Value)
  | .array values => .ok values
  | _ => .error .wrongType

/-- `extract_message` (lines 181-194): convert the received value to a
sequence and classify by arity. -/
def extract_message (message : Value) : Except RError PubSubMessage :=
  match fromValueVec message with
  | .error e => .error e
  | .ok parts =>
    match parts with
    | [pattern, channel, payload] => .ok (.from_pmessage pattern channel payload)
    | [channel, payload] => .ok (.from_message channel payload)
    | _ => .error (.client "Cannot parse PubSubMessage")

/-- `Poll` of the futures task model. -/
inductive Poll (α : Type) where
  | ready (val : α)
  | pending
deriving Repr

/-- `<PubSubStream as Stream>::poll_next` (lines 180-206); `recv` is the
outcome of polling the receiver sink. -/
def PubSubStream.poll_next (s : PubSubStream)
    (recv : Poll (Option (Except RError Value))) :
    Poll (Option (Except RError PubSubMessage)) :=
  if s.closed then .ready none
  else
    match recv with
    | .ready (some (.ok message)) => .ready (some (extract_message message))
    | .ready none => .ready none
    | .ready (some (.error e)) => .ready (some (.error e))
    | .pending => .pending

/-- C9: after `close()` completes successfully, every subsequent poll of
the stream yields end-of-stream (`Ready(None)`), whatever the receiver
would produce: `close` sets the `closed` flag on its success path and
`poll_next` short-circuits on it. -/
theorem close_then_poll_end_of_stream (s : PubSubStream)
    (runsub rpunsub rsunsub : Except RError Unit) (s2 : PubSubStream)
    (hclose : s.close runsub rpunsub rsunsub = (.ok (), s2)) :
    ∀ recv, s2.poll_next recv = .ready none := by
  intro recv
  have hcl : s2.closed = true := by
    simp only [PubSubStream.close] at hclose
    split at hclose
    · simp at hclose
    · split at hclose
      · simp at hclose
      · split at hclose
        · simp at hclose
        · cases hclose
          rfl
  simp [PubSubStream.poll_next, hcl]

/-- C9 witness: closing a live one-channel stream with successful
unsubscribe outcomes, then polling, yields end-of-stream. -/
theorem close_then_poll_end_of_stream_witness :
    PubSubStream.poll_next
        (PubSubStream.close
          { closed := false, channels := ["mychannel"], patterns := [],
            shardchannels := [] } (.ok ()) (.ok ()) (.ok ())).2
        (.ready (some (.ok (.array [.integer 1, .integer 2])))) = .ready none :=
  close_then_poll_end_of_stream
    { closed := false, channels := ["mychannel"], patterns := [], shardchannels := [] }
    (.ok ()) (.ok ()) (.ok ()) _ rfl _

/-- C10 counterexample: a non-sequence value received from the sink does
NOT yield the `Client` error `Cannot parse PubSubMessage`: the failure of
the conversion to a sequence (a `WrongType`-style error) propagates
through the `?` operator before the arity match is reached. -/
theorem extract_message_non_sequence :
    extract_message (.integer 42) = .error .wrongType ∧
    (Except.error .wrongType : Except RError PubSubMessage) ≠
      .error (.client "Cannot parse PubSubMessage") :=
  ⟨rfl, by simp⟩

/-- C10 amended: a sequence of exactly three elements is taken as
`(pattern, channel, payload)`, exactly two as `(channel, payload)` with a
`Nil` pattern, any other arity yields the `Client` error `Cannot parse
PubSubMessage`, and a non-sequence value fails with the conversion's
`WrongType`-style error instead of the `Client` error. -/
theorem extract_message_by_arity (v : Value) :
    (∀ a b c, v = .array [a, b, c] →
      extract_message v = .ok (.from_pmessage a b c)) ∧
    (∀ a b, v = .array [a, b] → extract_message v = .ok (.from_message a b)) ∧
    (∀ vs, v = .array vs → vs.length ≠ 2 → vs.length ≠ 3 →
      extract_message v = .error (.client "Cannot parse PubSubMessage")) ∧
    ((∀ vs, v ≠ .array vs) → extract_message v = .error .wrongType) := by
  refine ⟨?_, ?_, ?_, ?_⟩
  · rintro a b c rfl; rfl
  · rintro a b rfl; rfl
  · rintro vs rfl h2 h3
    rcases vs with _ | ⟨a, _ | ⟨b, _ | ⟨c, _ | ⟨d, rest⟩⟩⟩⟩
    · rfl
    · rfl
    · exact absurd rfl h2
    · exact absurd rfl h3
    · rfl
  · intro hnotarr
    cases v with
    | simpleString s => rfl
    | error e => rfl
    | integer i => rfl
    | bulkString bs => rfl
    | array vs => exact absurd rfl (hnotarr vs)
    | nil => rfl

/-- C10 amended witness: a two-element sequence yields a message with a
`Nil` pattern. -/
theorem extract_message_by_arity_witness :
    extract_message (.array [.integer 1, .integer 2]) =
      .ok (.from_message (.integer 1) (.integer 2)) :=
  (extract_message_by_arity (.array [.integer 1, .integer 2])).2.1
    (.integer 1) (.integer 2) rfl

/-! ## The amended shape of accepted integer payloads -/

theorem drop_take_cons (buf : List Nat) (pos m : Nat) (hpos : pos < buf.length)
    (hm : pos < m) :
    (buf.take m).drop pos = buf[pos] :: (buf.take m).drop (pos + 1) := by
  have hlen : pos < (buf.take m).length := by
    simp only [List.length_take]
    omega
  rw [List.drop_eq_getElem_cons hlen, List.getElem_take]

theorem intGo_true_elim (fuel : Nat) (buf : List Nat) (pos : Nat) (neg : Bool)
    (i r : Int) (n : Nat)
    (h : decodeIntegerGo fuel buf pos neg i true = .ok (some (r, n))) :
    n = pos + 1 ∧ pos < buf.length ∧ buf[pos]? = some 10 ∧ r = i := by
  cases fuel with
  | zero => exact absurd h (by simp [decodeIntegerGo])
  | succ fuel =>
    simp only [decodeIntegerGo] at h
    split at h
    · next hpos =>
      simp only [Bool.true_eq_false, false_and, if_false, true_and, if_true] at h
      split at h
      · next h10 =>
        obtain ⟨hr, hn⟩ : i = r ∧ pos + 1 = n := by
          cases h
          exact ⟨rfl, rfl⟩
        exact ⟨hn.symm, hpos, by rw [List.getElem?_eq_getElem hpos, h10], hr.symm⟩
      · cases h
    · cases h

theorem intGo_false_accepts :
    ∀ (fuel : Nat) (buf : List Nat) (pos : Nat) (neg : Bool) (i r : Int) (n : Nat),
      decodeIntegerGo fuel buf pos neg i false = .ok (some (r, n)) →
      pos + 2 ≤ n ∧ n ≤ buf.length ∧
      buf[n - 2]? = some 13 ∧ buf[n - 1]? = some 10 ∧
      (∀ b ∈ (buf.take (n - 2)).drop pos, (48 ≤ b ∧ b ≤ 57) ∨ b = 45) ∧
      ((buf.take (n - 2)).drop pos).count 45 + (if neg then 1 else 0) ≤ 1 := by
  intro fuel
  induction fuel with
  | zero =>
    intro buf pos neg i r n h
    exact absurd h (by simp [decodeIntegerGo])
  | succ fuel ih =>
    intro buf pos neg i r n h
    simp only [decodeIntegerGo] at h
    split at h
    case isFalse => cases h
    case isTrue hpos =>
    simp only [Bool.false_eq_true, false_and, and_false, if_false, true_and,
      eq_self_iff_true] at h
    split_ifs at h with h1 h2 h3 h4
    · -- the minus sign: may occur after digits, the flag is merely set
      obtain ⟨hle, hlen, h13, h10, hmem, hcnt⟩ := ih buf (pos + 1) true i r n h
      have hlt : pos < n - 2 := by omega
      rw [drop_take_cons buf pos (n - 2) hpos hlt]
      refine ⟨by omega, hlen, h13, h10, ?_, ?_⟩
      · intro b hb
        rcases List.mem_cons.mp hb with rfl | hb
        · exact Or.inr h1.2
        · exact hmem b hb
      · rw [List.count_cons]
        simp only [h1.2, h1.1, beq_self_eq_true, if_true, Bool.false_eq_true, if_false]
        simp only [if_true] at hcnt
        omega
    · -- a digit, not negative
      obtain ⟨hle, hlen, h13, h10, hmem, hcnt⟩ := ih buf (pos + 1) false _ r n h
      have hlt : pos < n - 2 := by omega
      rw [drop_take_cons buf pos (n - 2) hpos hlt]
      refine ⟨by omega, hlen, h13, h10, ?_, ?_⟩
      · intro b hb
        rcases List.mem_cons.mp hb with rfl | hb
        · exact Or.inl ⟨h2.2.1, h2.2.2⟩
        · exact hmem b hb
      · have hne : (buf[pos] == 45) = false := by
          simp only [beq_eq_false_iff_ne, ne_eq]
          omega
        rw [List.count_cons]
        simp [hne, h2.1] at hcnt ⊢
        omega
    · -- a digit, negative
      obtain ⟨hle, hlen, h13, h10, hmem, hcnt⟩ := ih buf (pos + 1) true _ r n h
      have hlt : pos < n - 2 := by omega
      rw [drop_take_cons buf pos (n - 2) hpos hlt]
      refine ⟨by omega, hlen, h13, h10, ?_, ?_⟩
      · intro b hb
        rcases List.mem_cons.mp hb with rfl | hb
        · exact Or.inl ⟨h3.2.1, h3.2.2⟩
        · exact hmem b hb
      · have hne : (buf[pos] == 45) = false := by
          simp only [beq_eq_false_iff_ne, ne_eq]
          omega
        rw [List.count_cons]
        simp [hne, h3.1] at hcnt ⊢
        omega
    · -- the carriage return: the line feed must follow and the scan ends
      obtain ⟨hn, hpos1, h10, hr⟩ := intGo_true_elim fuel buf (pos + 1) neg i r n h
      have hn2 : n - 2 = pos := by omega
      have hempty : (buf.take (n - 2)).drop pos = [] := by
        apply List.drop_eq_nil_of_le
        simp only [List.length_take]
        omega
      refine ⟨by omega, by omega, ?_, ?_, ?_, ?_⟩
      · rw [hn2, List.getElem?_eq_getElem hpos, h4]
      · have he : n - 1 = pos + 1 := by omega
        rw [he]
        exact h10
      · intro b hb
        rw [hempty] at hb
        cases hb
      · rw [hempty]
        cases neg <;> simp

/-- Rejection half of the amended integer grammar: if the scan from `pos`
reaches a byte at `q` that is neither a digit, nor the single permitted
`-` (one more `-` than the budget allows), nor the `\r`, having passed
only digits and within-budget minus signs on the way, the loop fails with
the `Unexpected byte` parse error carrying that byte.  The minus budget is
1 when `is_negative` is still unset, 0 once it is set. -/
theorem intGo_rejects :
    ∀ (fuel : Nat) (buf : List Nat) (pos q : Nat) (neg : Bool) (i : Int)
      (hq : q < buf.length),
      pos ≤ q → buf.length - pos < fuel →
      (∀ b ∈ (buf.take q).drop pos, (48 ≤ b ∧ b ≤ 57) ∨ b = 45) →
      ((buf.take q).drop pos).count 45 + (if neg then 1 else 0) ≤ 1 →
      ((buf[q] = 45 ∧ ((buf.take q).drop pos).count 45 + (if neg then 1 else 0) = 1) ∨
        (¬(48 ≤ buf[q] ∧ buf[q] ≤ 57) ∧ buf[q] ≠ 45 ∧ buf[q] ≠ 13)) →
      decodeIntegerGo fuel buf pos neg i false =
        .fail (.parse (.unexpectedByte buf[q])) := by
  intro fuel
  induction fuel with
  | zero => intro buf pos q neg i hq hpq hfuel hgood hcnt hbad; omega
  | succ fuel ih =>
    intro buf pos q neg i hq hpq hfuel hgood hcnt hbad
    have hpos : pos < buf.length := by omega
    simp only [decodeIntegerGo]
    rw [dif_pos hpos]
    by_cases hpqe : pos = q
    · subst hpqe
      have hreg : (buf.take pos).drop pos = [] := by
        apply List.drop_eq_nil_of_le
        simp [List.length_take]
      rw [hreg] at hcnt hbad
      simp only [List.count_nil, zero_add] at hcnt hbad
      rcases hbad with ⟨h45, hsum⟩ | ⟨hnd, hn45, hn13⟩
      · have hneg : neg = true := by
          cases neg
          · simp at hsum
          · rfl
        split_ifs with h1 h2 h3 h4 h5
        · rw [hneg] at h1
          exact absurd h1.2.1 (by decide)
        · rw [hneg] at h2
          exact absurd h2.2.1 (by decide)
        · rw [h45] at h3
          exact absurd h3.2.2 (by decide)
        · rw [h45] at h4
          exact absurd h4.2 (by decide)
        · exact absurd h5.1 (by decide)
        · rfl
      · split_ifs with h1 h2 h3 h4 h5
        · exact absurd h1.2.2 hn45
        · exact absurd h2.2.2 hnd
        · exact absurd h3.2.2 hnd
        · exact absurd h4.2 hn13
        · exact absurd h5.1 (by decide)
        · rfl
    · have hlt : pos < q := by omega
      have hconsr := drop_take_cons buf pos q hpos hlt
      have hmem : (48 ≤ buf[pos] ∧ buf[pos] ≤ 57) ∨ buf[pos] = 45 := by
        apply hgood
        rw [hconsr]
        simp
      have hgood2 : ∀ b ∈ (buf.take q).drop (pos + 1), (48 ≤ b ∧ b ≤ 57) ∨ b = 45 := by
        intro b hb
        apply hgood
        rw [hconsr]
        simp [hb]
      rcases hmem with hdig | h45
      · -- a digit at `pos`: the scan continues with the flag unchanged
        have hcc : ((buf.take q).drop pos).count 45 =
            ((buf.take q).drop (pos + 1)).count 45 := by
          rw [hconsr]
          simp [List.count_cons, show buf[pos] ≠ 45 from by omega]
        rw [hcc] at hcnt hbad
        split_ifs with h1 h2 h3 h4 h5
        · exact absurd h1.2.2 (by omega)
        · rw [h2.2.1] at hcnt hbad
          exact ih buf (pos + 1) q false _ hq (by omega) (by omega) hgood2 hcnt hbad
        · rw [h3.2.1] at hcnt hbad
          exact ih buf (pos + 1) q true _ hq (by omega) (by omega) hgood2 hcnt hbad
        · exact absurd h4.2 (by omega)
        · exact absurd h5.1 (by decide)
        · rcases Bool.eq_false_or_eq_true neg with hn | hn
          · exact absurd ⟨trivial, hn, hdig⟩ h3
          · exact absurd ⟨trivial, hn, hdig⟩ h2
      · -- the single permitted minus at `pos`: the flag must still be unset
        have hcc : ((buf.take q).drop pos).count 45 =
            ((buf.take q).drop (pos + 1)).count 45 + 1 := by
          rw [hconsr]
          simp [List.count_cons, h45]
        rw [hcc] at hcnt hbad
        have hneg : neg = false := by
          cases neg
          · rfl
          · exfalso
            simp only [if_true] at hcnt
            omega
        subst hneg
        have hcnt3 : ((buf.take q).drop (pos + 1)).count 45 + (if (true : Bool) then 1 else 0) ≤ 1 := by
          simp only [if_true]
          simp only [Bool.false_eq_true, if_false, add_zero] at hcnt
          omega
        have hbad3 : (buf[q] = 45 ∧
              ((buf.take q).drop (pos + 1)).count 45 + (if (true : Bool) then 1 else 0) = 1) ∨
            (¬(48 ≤ buf[q] ∧ buf[q] ≤ 57) ∧ buf[q] ≠ 45 ∧ buf[q] ≠ 13) := by
          rcases hbad with ⟨hb45, hsum⟩ | hother
          · refine Or.inl ⟨hb45, ?_⟩
            simp only [if_true]
            simp only [Bool.false_eq_true, if_false, add_zero] at hsum
            omega
          · exact Or.inr hother
        split_ifs with h1 h2 h3 h4 h5
        · exact ih buf (pos + 1) q true _ hq (by omega) (by omega) hgood2 hcnt3 hbad3
        · rw [h45] at h2
          exact absurd h2.2.2 (by decide)
        · exact absurd h3.2.1 (by decide)
        · rw [h45] at h4
          exact absurd h4.2 (by decide)
        · exact absurd h5.1 (by decide)
        · exact absurd ⟨trivial, rfl, h45⟩ h1

/-- C4 amended: the integer parser accepts at most one `-`, anywhere
among the digits before the `\r`, not only in leading position.
First conjunct (soundness of acceptance): a successful `decode_integer`
run scanning from `idx` and consuming up to byte `n` ends with `\r\n`
at `n - 2`, and every byte of the scanned payload before the `\r` is a
decimal digit or a `-`, with at most one `-` in total (the original
claim's `:1-2\r\n` decodes to `Integer(8)`).
Second conjunct (rejection): any byte before the `\r` other than a
digit or that single `-` -- including a second `-` -- makes the decoder
return the `Unexpected byte` parse error. -/
theorem decode_integer_amended (buf : List Nat) (idx : Nat) :
    (∀ (i : Int) (n : Nat), decode_integer buf idx = .ok (some (i, n)) →
      idx + 2 ≤ n ∧ n ≤ buf.length ∧
      buf[n - 2]? = some 13 ∧ buf[n - 1]? = some 10 ∧
      (∀ b ∈ (buf.take (n - 2)).drop idx, (48 ≤ b ∧ b ≤ 57) ∨ b = 45) ∧
      ((buf.take (n - 2)).drop idx).count 45 ≤ 1) ∧
    (∀ (q : Nat) (hq : q < buf.length), idx ≤ q →
      (∀ b ∈ (buf.take q).drop idx, (48 ≤ b ∧ b ≤ 57) ∨ b = 45) →
      ((buf.take q).drop idx).count 45 ≤ 1 →
      ((buf[q] = 45 ∧ ((buf.take q).drop idx).count 45 = 1) ∨
        (¬(48 ≤ buf[q] ∧ buf[q] ≤ 57) ∧ buf[q] ≠ 45 ∧ buf[q] ≠ 13)) →
      decode_integer buf idx = .fail (.parse (.unexpectedByte buf[q]))) := by
  constructor
  · intro i n h
    obtain ⟨h1, h2, h3, h4, h5, h6⟩ :=
      intGo_false_accepts (buf.length + 1) buf idx false 0 i n h
    exact ⟨h1, h2, h3, h4, h5, by simpa using h6⟩
  · intro q hq hge hgood hcnt hbad
    exact intGo_rejects (buf.length + 1) buf idx q false 0 hq hge (by omega) hgood
      (by simpa using hcnt)
      (by
        rcases hbad with ⟨hb45, hsum⟩ | hother
        · exact Or.inl ⟨hb45, by simpa using hsum⟩
        · exact Or.inr hother)

/-- C4 amended witness: `decode_integer` accepts `-12\r\n` (the payload
of `:-12\r\n`, one minus among the digits), and rejects the second `-`
of `:--1\r\n` with the `Unexpected byte` parse error. -/
theorem decode_integer_amended_witness :
    (((strBytes ":-12\r\n").take 4).drop 1).count 45 ≤ 1 ∧
    decode_integer (strBytes ":--1\r\n") 1 = .fail (.parse (.unexpectedByte 45)) := by
  constructor
  · have h := (decode_integer_amended (strBytes ":-12\r\n") 1).1 (-12) 6 (by rfl)
    exact h.2.2.2.2.2
  · have h := (decode_integer_amended (strBytes ":--1\r\n") 1).2 2 (by decide) (by decide)
      (by decide) (by decide) (by decide)
    exact h

/-! ## Frame-level safety of the decoder on partial input

The development below establishes the spec's partial-read safety: a
strict front portion of a buffer whose extension decodes successfully
makes `decode` return `Ok(None)` without advancing the buffer.  The
lemmas follow one scheme per function: progress bounds on the consumed
position, fuel monotonicity and sufficiency (the fuel is an artefact of
the embedding), agreement between the extended and the shortened buffer
when the frame fits, and the `Ok(None)` result when it does not. -/

theorem intGo_bounds :
    ∀ (fuel : Nat) (buf : List Nat) (pos : Nat) (neg : Bool) (i v : Int) (cr : Bool) (n : Nat),
      decodeIntegerGo fuel buf pos neg i cr = .ok (some (v, n)) →
      pos < n ∧ n ≤ buf.length := by
  intro fuel
  induction fuel with
  | zero =>
    intro buf pos neg i v cr n h
    exact absurd h (by simp [decodeIntegerGo])
  | succ fuel ih =>
    intro buf pos neg i v cr n h
    simp only [decodeIntegerGo] at h
    split at h
    case isFalse => cases h
    case isTrue hpos =>
    split_ifs at h with h1 h2 h3 h4 h5
    · have := ih _ _ _ _ _ _ _ h; omega
    · have := ih _ _ _ _ _ _ _ h; omega
    · have := ih _ _ _ _ _ _ _ h; omega
    · have := ih _ _ _ _ _ _ _ h; omega
    · cases h; omega

theorem intGo_mono :
    ∀ (fuel fuel2 : Nat) (buf : List Nat) (pos : Nat) (neg : Bool) (i : Int) (cr : Bool),
      fuel ≤ fuel2 → decodeIntegerGo fuel buf pos neg i cr ≠ .fuelOut →
      decodeIntegerGo fuel2 buf pos neg i cr = decodeIntegerGo fuel buf pos neg i cr := by
  intro fuel
  induction fuel with
  | zero =>
    intro fuel2 buf pos neg i cr hle hne
    exact absurd (by simp [decodeIntegerGo]) hne
  | succ fuel ih =>
    intro fuel2 buf pos neg i cr hle hne
    obtain ⟨f2, rfl⟩ : ∃ f2, fuel2 = f2 + 1 := ⟨fuel2 - 1, by omega⟩
    simp only [decodeIntegerGo] at hne ⊢
    split
    case isTrue hpos =>
      split_ifs at hne ⊢ with h1 h2 h3 h4 h5
      · exact ih f2 _ _ _ _ _ (by omega) hne
      · exact ih f2 _ _ _ _ _ (by omega) hne
      · exact ih f2 _ _ _ _ _ (by omega) hne
      · exact ih f2 _ _ _ _ _ (by omega) hne
      · rfl
      · rfl
    case isFalse hpos => rfl

theorem intGo_suff :
    ∀ (fuel : Nat) (buf : List Nat) (pos : Nat) (neg : Bool) (i : Int) (cr : Bool),
      buf.length - pos < fuel → decodeIntegerGo fuel buf pos neg i cr ≠ .fuelOut := by
  intro fuel
  induction fuel with
  | zero => intro buf pos neg i cr h; omega
  | succ fuel ih =>
    intro buf pos neg i cr h
    simp only [decodeIntegerGo]
    split
    case isFalse hpos => simp
    case isTrue hpos =>
    split_ifs with h1 h2 h3 h4 h5
    · exact ih _ _ _ _ _ (by omega)
    · exact ih _ _ _ _ _ (by omega)
    · exact ih _ _ _ _ _ (by omega)
    · exact ih _ _ _ _ _ (by omega)
    · simp
    · simp

theorem intGo_agree :
    ∀ (fuel : Nat) (buf rest : List Nat) (pos : Nat) (neg : Bool) (i v : Int) (cr : Bool) (n : Nat),
      decodeIntegerGo fuel (buf ++ rest) pos neg i cr = .ok (some (v, n)) →
      n ≤ buf.length →
      decodeIntegerGo fuel buf pos neg i cr = .ok (some (v, n)) := by
  intro fuel
  induction fuel with
  | zero =>
    intro buf rest pos neg i v cr n h hn
    exact absurd h (by simp [decodeIntegerGo])
  | succ fuel ih =>
    intro buf rest pos neg i v cr n h hn
    have hb := intGo_bounds (fuel + 1) (buf ++ rest) pos neg i v cr n h
    have hpb : pos < buf.length := by omega
    have hpf : pos < (buf ++ rest).length := by simp; omega
    have hbyte : (buf ++ rest)[pos] = buf[pos] :=
      List.getElem_append_left hpb
    simp only [decodeIntegerGo] at h ⊢
    rw [dif_pos (by simp; omega : pos < (buf ++ rest).length)] at h
    rw [dif_pos hpb]
    rw [hbyte] at h
    split_ifs at h ⊢ with h1 h2 h3 h4 h5
    · exact ih _ _ _ _ _ _ _ _ h hn
    · exact ih _ _ _ _ _ _ _ _ h hn
    · exact ih _ _ _ _ _ _ _ _ h hn
    · exact ih _ _ _ _ _ _ _ _ h hn
    · exact h

theorem intGo_front_none :
    ∀ (fuel : Nat) (buf rest : List Nat) (pos : Nat) (neg : Bool) (i v : Int) (cr : Bool) (n : Nat),
      decodeIntegerGo fuel (buf ++ rest) pos neg i cr = .ok (some (v, n)) →
      buf.length < n →
      decodeIntegerGo fuel buf pos neg i cr = .ok none := by
  intro fuel
  induction fuel with
  | zero =>
    intro buf rest pos neg i v cr n h hn
    exact absurd h (by simp [decodeIntegerGo])
  | succ fuel ih =>
    intro buf rest pos neg i v cr n h hn
    by_cases hpb : pos < buf.length
    · have hb := intGo_bounds (fuel + 1) (buf ++ rest) pos neg i v cr n h
      have hpf : pos < (buf ++ rest).length := by simp; omega
      have hbyte : (buf ++ rest)[pos] = buf[pos] :=
        List.getElem_append_left hpb
      simp only [decodeIntegerGo] at h ⊢
      rw [dif_pos (by simp; omega : pos < (buf ++ rest).length)] at h
      rw [dif_pos hpb]
      rw [hbyte] at h
      split_ifs at h ⊢ with h1 h2 h3 h4 h5
      · exact ih _ _ _ _ _ _ _ _ h hn
      · exact ih _ _ _ _ _ _ _ _ h hn
      · exact ih _ _ _ _ _ _ _ _ h hn
      · exact ih _ _ _ _ _ _ _ _ h hn
      · exact absurd h (by intro hc; cases hc; omega)
    · simp only [decodeIntegerGo]
      rw [dif_neg hpb]

/-- `decode_integer` never runs out of fuel: the wrapper supplies more
fuel than the loop has bytes to scan. -/
theorem decode_integer_ne_fuelOut (buf : List Nat) (idx : Nat) :
    decode_integer buf idx ≠ .fuelOut :=
  intGo_suff _ _ _ _ _ _ (by omega)

theorem decode_integer_bounds (buf : List Nat) (idx : Nat) (v : Int) (n : Nat)
    (h : decode_integer buf idx = .ok (some (v, n))) : idx < n ∧ n ≤ buf.length :=
  intGo_bounds _ _ _ _ _ _ _ _ h

theorem decode_integer_agree (buf rest : List Nat) (idx : Nat) (v : Int) (n : Nat)
    (h : decode_integer (buf ++ rest) idx = .ok (some (v, n))) (hn : n ≤ buf.length) :
    decode_integer buf idx = .ok (some (v, n)) := by
  have h1 : decodeIntegerGo ((buf ++ rest).length + 1) buf idx false 0 false =
      .ok (some (v, n)) := intGo_agree _ _ _ _ _ _ _ _ _ h hn
  have h2 := intGo_mono (buf.length + 1) ((buf ++ rest).length + 1) buf idx false 0 false
    (by simp) (intGo_suff _ _ _ _ _ _ (by omega))
  rw [decode_integer, ← h2, h1]

theorem decode_integer_front_none (buf rest : List Nat) (idx : Nat) (v : Int) (n : Nat)
    (h : decode_integer (buf ++ rest) idx = .ok (some (v, n))) (hn : buf.length < n) :
    decode_integer buf idx = .ok none := by
  have h1 : decodeIntegerGo ((buf ++ rest).length + 1) buf idx false 0 false = .ok none :=
    intGo_front_none _ _ _ _ _ _ _ _ _ h hn
  have h2 := intGo_mono (buf.length + 1) ((buf ++ rest).length + 1) buf idx false 0 false
    (by simp) (intGo_suff _ _ _ _ _ _ (by omega))
  rw [decode_integer, ← h2, h1]

theorem strGo_bounds :
    ∀ (fuel : Nat) (buf : List Nat) (idx pos : Nat) (cr : Bool) (s : List Nat) (n : Nat),
      decodeStringGo fuel buf idx pos cr = .ok (some (s, n)) →
      pos < n ∧ n ≤ buf.length := by
  intro fuel
  induction fuel with
  | zero =>
    intro buf idx pos cr s n h
    exact absurd h (by simp [decodeStringGo])
  | succ fuel ih =>
    intro buf idx pos cr s n h
    simp only [decodeStringGo] at h
    split at h
    case isFalse => cases h
    case isTrue hpos =>
    split_ifs at h with h1 h2 h3
    · have := ih _ _ _ _ _ _ h; omega
    · cases h; omega
    · have := ih _ _ _ _ _ _ h; omega

theorem strGo_mono :
    ∀ (fuel fuel2 : Nat) (buf : List Nat) (idx pos : Nat) (cr : Bool),
      fuel ≤ fuel2 → decodeStringGo fuel buf idx pos cr ≠ .fuelOut →
      decodeStringGo fuel2 buf idx pos cr = decodeStringGo fuel buf idx pos cr := by
  intro fuel
  induction fuel with
  | zero =>
    intro fuel2 buf idx pos cr hle hne
    exact absurd (by simp [decodeStringGo]) hne
  | succ fuel ih =>
    intro fuel2 buf idx pos cr hle hne
    obtain ⟨f2, rfl⟩ : ∃ f2, fuel2 = f2 + 1 := ⟨fuel2 - 1, by omega⟩
    simp only [decodeStringGo] at hne ⊢
    split
    case isTrue hpos =>
      split_ifs at hne ⊢ with h1 h2 h3
      · exact ih f2 _ _ _ _ (by omega) hne
      · rfl
      · exact ih f2 _ _ _ _ (by omega) hne
      · rfl
    case isFalse hpos => rfl

theorem strGo_suff :
    ∀ (fuel : Nat) (buf : List Nat) (idx pos : Nat) (cr : Bool),
      buf.length - pos < fuel → decodeStringGo fuel buf idx pos cr ≠ .fuelOut := by
  intro fuel
  induction fuel with
  | zero => intro buf idx pos cr h; omega
  | succ fuel ih =>
    intro buf idx pos cr h
    simp only [decodeStringGo]
    split
    case isFalse hpos => simp
    case isTrue hpos =>
    split_ifs with h1 h2 h3
    · exact ih _ _ _ _ (by omega)
    · simp
    · exact ih _ _ _ _ (by omega)
    · simp

theorem strGo_agree :
    ∀ (fuel : Nat) (buf rest : List Nat) (idx pos : Nat) (cr : Bool) (s : List Nat) (n : Nat),
      decodeStringGo fuel (buf ++ rest) idx pos cr = .ok (some (s, n)) →
      n ≤ buf.length →
      decodeStringGo fuel buf idx pos cr = .ok (some (s, n)) := by
  intro fuel
  induction fuel with
  | zero =>
    intro buf rest idx pos cr s n h hn
    exact absurd h (by simp [decodeStringGo])
  | succ fuel ih =>
    intro buf rest idx pos cr s n h hn
    have hb := strGo_bounds (fuel + 1) (buf ++ rest) idx pos cr s n h
    have hpb : pos < buf.length := by omega
    have hpf : pos < (buf ++ rest).length := by simp; omega
    have hbyte : (buf ++ rest)[pos] = buf[pos] :=
      List.getElem_append_left hpb
    simp only [decodeStringGo] at h ⊢
    rw [dif_pos (by simp; omega : pos < (buf ++ rest).length)] at h
    rw [dif_pos hpb]
    rw [hbyte] at h
    split_ifs at h ⊢ with h1 h2 h3
    · exact ih _ _ _ _ _ _ _ h hn
    · rw [List.take_append_of_le_length (by omega : pos - 1 ≤ buf.length)] at h
      exact h
    · exact ih _ _ _ _ _ _ _ h hn

theorem strGo_front_none :
    ∀ (fuel : Nat) (buf rest : List Nat) (idx pos : Nat) (cr : Bool) (s : List Nat) (n : Nat),
      decodeStringGo fuel (buf ++ rest) idx pos cr = .ok (some (s, n)) →
      buf.length < n →
      decodeStringGo fuel buf idx pos cr = .ok none := by
  intro fuel
  induction fuel with
  | zero =>
    intro buf rest idx pos cr s n h hn
    exact absurd h (by simp [decodeStringGo])
  | succ fuel ih =>
    intro buf rest idx pos cr s n h hn
    by_cases hpb : pos < buf.length
    · have hb := strGo_bounds (fuel + 1) (buf ++ rest) idx pos cr s n h
      have hpf : pos < (buf ++ rest).length := by simp; omega
      have hbyte : (buf ++ rest)[pos] = buf[pos] :=
        List.getElem_append_left hpb
      simp only [decodeStringGo] at h ⊢
      rw [dif_pos (by simp; omega : pos < (buf ++ rest).length)] at h
      rw [dif_pos hpb]
      rw [hbyte] at h
      split_ifs at h ⊢ with h1 h2 h3
      · exact ih _ _ _ _ _ _ _ h hn
      · exact absurd h (by intro hc; cases hc; omega)
      · exact ih _ _ _ _ _ _ _ h hn
    · simp only [decodeStringGo]
      rw [dif_neg hpb]

theorem decode_string_bounds (buf : List Nat) (idx : Nat) (s : List Nat) (n : Nat)
    (h : decode_string buf idx = .ok (some (s, n))) : idx < n ∧ n ≤ buf.length := by
  have := strGo_bounds _ _ _ _ _ _ _ h
  omega

theorem decode_string_agree (buf rest : List Nat) (idx : Nat) (s : List Nat) (n : Nat)
    (h : decode_string (buf ++ rest) idx = .ok (some (s, n))) (hn : n ≤ buf.length) :
    decode_string buf idx = .ok (some (s, n)) := by
  have h1 : decodeStringGo ((buf ++ rest).length + 1) buf idx idx false = .ok (some (s, n)) :=
    strGo_agree _ _ _ _ _ _ _ _ h hn
  have h2 := strGo_mono (buf.length + 1) ((buf ++ rest).length + 1) buf idx idx false
    (by simp) (strGo_suff _ _ _ _ _ (by omega))
  rw [decode_string, ← h2, h1]

theorem decode_string_front_none (buf rest : List Nat) (idx : Nat) (s : List Nat) (n : Nat)
    (h : decode_string (buf ++ rest) idx = .ok (some (s, n))) (hn : buf.length < n) :
    decode_string buf idx = .ok none := by
  have h1 : decodeStringGo ((buf ++ rest).length + 1) buf idx idx false = .ok none :=
    strGo_front_none _ _ _ _ _ _ _ _ h hn
  have h2 := strGo_mono (buf.length + 1) ((buf ++ rest).length + 1) buf idx idx false
    (by simp) (strGo_suff _ _ _ _ _ (by omega))
  rw [decode_string, ← h2, h1]

theorem toUsize_lt (i : Int) : toUsize i < u64Mod := by
  have hne : ((u64Mod : Nat) : Int) ≠ 0 := by norm_num [u64Mod]
  have h1 : (0 : Int) < ((u64Mod : Nat) : Int) := by norm_num [u64Mod]
  have h2 := Int.emod_lt_of_pos i h1
  have h3 := Int.emod_nonneg i hne
  simp only [toUsize]
  omega

/-- Success of the bulk-string payload check forces the wrapping `usize`
arithmetic not to wrap: with the cursor at least 2 (it sits past a
`\r\n`) and `pos ≤ (pos + lenUs) % 2^64`, both `pos + lenUs` and
`lenUs + 2` are below `2^64`. -/
theorem bulk_nowrap (pos lenUs : Nat) (hlen : lenUs < u64Mod) (hpos : 2 ≤ pos)
    (hle : pos ≤ (pos + lenUs) % u64Mod) :
    pos + lenUs < u64Mod ∧ (pos + lenUs) % u64Mod = pos + lenUs ∧
    lenUs + 2 < u64Mod ∧ (lenUs + 2) % u64Mod = lenUs + 2 := by
  have hM : 0 < u64Mod := by norm_num [u64Mod]
  have hmod : (pos + lenUs) % u64Mod < u64Mod := Nat.mod_lt _ hM
  by_cases hw : pos + lenUs < u64Mod
  · have h1 : (pos + lenUs) % u64Mod = pos + lenUs := Nat.mod_eq_of_lt hw
    have h2 : lenUs + 2 < u64Mod := by omega
    exact ⟨hw, h1, h2, Nat.mod_eq_of_lt h2⟩
  · exfalso
    have h1 : (pos + lenUs) % u64Mod = pos + lenUs - u64Mod := by
      rw [Nat.mod_eq_sub_mod (by omega)]
      exact Nat.mod_eq_of_lt (by omega)
    omega

/-- Elimination of a successful `decode_bulk_string`: the header parse
succeeded and either the length was `-1`, or the payload (with its
`\r\n`) fits, the wrapping arithmetic did not wrap, and the result is
the payload slice. -/
theorem bulk_elim (buf : List Nat) (idx : Nat) (bs : BulkStringV) (n : Nat)
    (h : decode_bulk_string buf idx = .ok (some (bs, n))) :
    ∃ len pos, decode_integer buf idx = .ok (some (len, pos)) ∧
      idx + 2 ≤ pos ∧ pos ≤ buf.length ∧
      ((len = -1 ∧ bs = .nil ∧ n = pos) ∨
       (len ≠ -1 ∧ pos + toUsize len < u64Mod ∧ toUsize len + 2 < u64Mod ∧
        n = pos + toUsize len + 2 ∧ n ≤ buf.length ∧
        bs = .binary ((buf.take (pos + toUsize len)).drop pos) ∧
        buf[pos + toUsize len]? = some 13 ∧ buf[pos + toUsize len + 1]? = some 10)) := by
  unfold decode_bulk_string at h
  dsimp only at h
  split at h
  · cases h
  · next len pos heq =>
    have hbd := intGo_false_accepts _ _ _ _ _ _ _ heq
    refine ⟨len, pos, heq, by omega, by omega, ?_⟩
    split at h
    · next hm1 => cases h; exact Or.inl ⟨hm1, rfl, rfl⟩
    · next hm1 =>
      split at h
      · cases h
      · next hshort =>
        split at h
        · next hb =>
          split at h
          · cases h
          · next hcrlf =>
            split at h
            · next hle =>
              have hnw := bulk_nowrap pos (toUsize len) (toUsize_lt len) (by omega) hle
              obtain ⟨hw1, he1, hw2, he2⟩ := hnw
              rw [not_or] at hcrlf
              obtain ⟨hb13, hb10⟩ := hcrlf
              simp only [not_not] at hb13 hb10
              cases h
              next hb2 =>
              refine Or.inr ⟨hm1, hw1, hw2, by omega, by omega, by rw [he1], ?_, ?_⟩
              · rw [← he1, List.getElem?_eq_getElem (by omega), hb13]
              · rw [← he1, List.getElem?_eq_getElem (by omega), hb10]
            · cases h
        · cases h
  · cases h
  · cases h
  · cases h

theorem bulk_intro_nil (buf : List Nat) (idx : Nat) (pos : Nat)
    (heq : decode_integer buf idx = .ok (some (-1, pos))) :
    decode_bulk_string buf idx = .ok (some (.nil, pos)) := by
  unfold decode_bulk_string
  rw [heq]
  simp

theorem bulk_intro_binary (buf : List Nat) (idx : Nat) (len : Int) (pos : Nat)
    (heq : decode_integer buf idx = .ok (some (len, pos)))
    (hm1 : len ≠ -1)
    (hw1 : pos + toUsize len < u64Mod) (hw2 : toUsize len + 2 < u64Mod)
    (hfit : pos + toUsize len + 2 ≤ buf.length)
    (h13 : buf[pos + toUsize len]? = some 13)
    (h10 : buf[pos + toUsize len + 1]? = some 10) :
    decode_bulk_string buf idx =
      .ok (some (.binary ((buf.take (pos + toUsize len)).drop pos),
        pos + toUsize len + 2)) := by
  have hd1 : pos + toUsize len < buf.length := by omega
  have hd2 : pos + toUsize len + 1 < buf.length := by omega
  have hg13 : buf[pos + toUsize len] = 13 := by
    rw [List.getElem?_eq_getElem hd1] at h13
    exact Option.some.inj h13
  have hg10 : buf[pos + toUsize len + 1] = 10 := by
    rw [List.getElem?_eq_getElem hd2] at h10
    exact Option.some.inj h10
  have hnot : ¬(¬buf[pos + toUsize len] = 13 ∨ ¬buf[pos + toUsize len + 1] = 10) := by
    rw [not_or, not_not, not_not]
    exact ⟨hg13, hg10⟩
  unfold decode_bulk_string
  rw [heq]
  dsimp only
  rw [if_neg hm1]
  simp only [Nat.mod_eq_of_lt hw1, Nat.mod_eq_of_lt hw2]
  rw [if_neg (by omega)]
  rw [dif_pos hd2]
  rw [if_neg hnot]
  rw [if_pos (by omega : pos ≤ pos + toUsize len)]

theorem bulk_intro_none_short (buf : List Nat) (idx : Nat) (len : Int) (pos : Nat)
    (heq : decode_integer buf idx = .ok (some (len, pos)))
    (hm1 : len ≠ -1)
    (hshort : buf.length - pos < (toUsize len + 2) % u64Mod) :
    decode_bulk_string buf idx = .ok none := by
  unfold decode_bulk_string
  rw [heq]
  dsimp only
  rw [if_neg hm1]
  rw [if_pos hshort]

theorem bulk_intro_none_header (buf : List Nat) (idx : Nat)
    (heq : decode_integer buf idx = .ok none) :
    decode_bulk_string buf idx = .ok none := by
  unfold decode_bulk_string
  rw [heq]

theorem decode_bulk_string_bounds (buf : List Nat) (idx : Nat) (bs : BulkStringV) (n : Nat)
    (h : decode_bulk_string buf idx = .ok (some (bs, n))) : idx + 2 ≤ n ∧ n ≤ buf.length := by
  obtain ⟨len, pos, heq, hp1, hp2, hcases⟩ := bulk_elim buf idx bs n h
  rcases hcases with ⟨_, _, rfl⟩ | ⟨_, _, _, rfl, hle, _⟩
  · omega
  · omega

theorem decode_bulk_string_agree (buf rest : List Nat) (idx : Nat) (bs : BulkStringV) (n : Nat)
    (h : decode_bulk_string (buf ++ rest) idx = .ok (some (bs, n))) (hn : n ≤ buf.length) :
    decode_bulk_string buf idx = .ok (some (bs, n)) := by
  obtain ⟨len, pos, heq, hp1, hp2, hcases⟩ := bulk_elim (buf ++ rest) idx bs n h
  rcases hcases with ⟨rfl, rfl, rfl⟩ | ⟨hm1, hw1, hw2, rfl, hle, rfl, h13, h10⟩
  · exact bulk_intro_nil buf idx n (decode_integer_agree buf rest idx (-1) n heq hn)
  · have hpn : pos ≤ buf.length := by omega
    have heq2 := decode_integer_agree buf rest idx len pos heq (by omega)
    have h13b : buf[pos + toUsize len]? = some 13 := by
      rw [← h13, List.getElem?_append, if_pos (by omega)]
    have h10b : buf[pos + toUsize len + 1]? = some 10 := by
      rw [← h10, List.getElem?_append, if_pos (by omega)]
    have hslice : ((buf ++ rest).take (pos + toUsize len)).drop pos =
        (buf.take (pos + toUsize len)).drop pos := by
      rw [List.take_append_of_le_length (by omega)]
    rw [hslice]
    exact bulk_intro_binary buf idx len pos heq2 hm1 hw1 hw2 (by omega) h13b h10b

theorem decode_bulk_string_front_none (buf rest : List Nat) (idx : Nat)
    (bs : BulkStringV) (n : Nat)
    (h : decode_bulk_string (buf ++ rest) idx = .ok (some (bs, n))) (hn : buf.length < n) :
    decode_bulk_string buf idx = .ok none := by
  obtain ⟨len, pos, heq, hp1, hp2, hcases⟩ := bulk_elim (buf ++ rest) idx bs n h
  rcases hcases with ⟨rfl, rfl, rfl⟩ | ⟨hm1, hw1, hw2, rfl, hle, rfl, h13, h10⟩
  · exact bulk_intro_none_header buf idx
      (decode_integer_front_none buf rest idx (-1) n heq hn)
  · by_cases hpb : pos ≤ buf.length
    · have heq2 := decode_integer_agree buf rest idx len pos heq hpb
      refine bulk_intro_none_short buf idx len pos heq2 hm1 ?_
      rw [Nat.mod_eq_of_lt hw2]
      omega
    · exact bulk_intro_none_header buf idx
        (decode_integer_front_none buf rest idx len pos heq (by omega))

theorem listGo_bounds (d : List Nat → Nat → ROut (Option (Value × Nat))) (buf : List Nat)
    (hdb : ∀ p v n, d buf p = .ok (some (v, n)) → p < n ∧ n ≤ buf.length) :
    ∀ (count pos : Nat) (vs : List Value) (n : Nat),
      pos ≤ buf.length →
      decodeListGo d buf pos count = .ok (some (vs, n)) → pos ≤ n ∧ n ≤ buf.length := by
  intro count
  induction count with
  | zero =>
    intro pos vs n hpos h
    cases h
    exact ⟨le_refl _, hpos⟩
  | succ count ih =>
    intro pos vs n hpos h
    simp only [decodeListGo] at h
    split at h
    · cases h
    · next v newPos hdp =>
      split at h
      · next values p hrec =>
        cases h
        have h1 := hdb _ _ _ hdp
        have h2 := ih newPos values n (by omega) hrec
        omega
      · cases h
      · cases h
      · cases h
      · cases h
    · cases h
    · cases h
    · cases h

theorem listGo_agree (d d2 : List Nat → Nat → ROut (Option (Value × Nat)))
    (buf rest : List Nat)
    (hdb : ∀ p v n, d (buf ++ rest) p = .ok (some (v, n)) → p < n ∧ n ≤ (buf ++ rest).length)
    (hagree : ∀ p v n, d (buf ++ rest) p = .ok (some (v, n)) → n ≤ buf.length →
      d2 buf p = .ok (some (v, n))) :
    ∀ (count pos : Nat) (vs : List Value) (n : Nat),
      decodeListGo d (buf ++ rest) pos count = .ok (some (vs, n)) → n ≤ buf.length →
      decodeListGo d2 buf pos count = .ok (some (vs, n)) := by
  intro count
  induction count with
  | zero =>
    intro pos vs n h hn
    cases h
    rfl
  | succ count ih =>
    intro pos vs n h hn
    simp only [decodeListGo] at h ⊢
    split at h
    · cases h
    · next v newPos hdp =>
      split at h
      · next values p hrec =>
        cases h
        have hb1 := hdb _ _ _ hdp
        have hb2 := listGo_bounds d (buf ++ rest) hdb count newPos values n (by omega) hrec
        rw [hagree _ _ _ hdp (by omega)]
        dsimp only
        rw [ih newPos values n hrec hn]
      · cases h
      · cases h
      · cases h
      · cases h
    · cases h
    · cases h
    · cases h

theorem listGo_front_none (d d2 : List Nat → Nat → ROut (Option (Value × Nat)))
    (buf rest : List Nat)
    (hagree : ∀ p v n, d (buf ++ rest) p = .ok (some (v, n)) → n ≤ buf.length →
      d2 buf p = .ok (some (v, n)))
    (hfront : ∀ p v n, d (buf ++ rest) p = .ok (some (v, n)) → buf.length < n →
      d2 buf p = .ok none) :
    ∀ (count pos : Nat) (vs : List Value) (n : Nat),
      pos ≤ buf.length →
      decodeListGo d (buf ++ rest) pos count = .ok (some (vs, n)) → buf.length < n →
      decodeListGo d2 buf pos count = .ok none := by
  intro count
  induction count with
  | zero =>
    intro pos vs n hpos h hn
    cases h
    omega
  | succ count ih =>
    intro pos vs n hpos h hn
    simp only [decodeListGo] at h ⊢
    split at h
    · cases h
    · next v newPos hdp =>
      split at h
      · next values p hrec =>
        cases h
        by_cases hp1 : newPos ≤ buf.length
        · rw [hagree _ _ _ hdp hp1]
          dsimp only
          rw [ih newPos values n hp1 hrec hn]
        · rw [hfront _ _ _ hdp (by omega)]
      · cases h
      · cases h
      · cases h
      · cases h
    · cases h
    · cases h
    · cases h

theorem arrGo_bounds (d : List Nat → Nat → ROut (Option (Value × Nat)))
    (buf : List Nat) (idx : Nat) (vs : List Value) (n : Nat)
    (hdb : ∀ p v n2, d buf p = .ok (some (v, n2)) → p < n2 ∧ n2 ≤ buf.length)
    (h : decodeArrayGo d buf idx = .ok (some (vs, n))) :
    idx + 2 ≤ n ∧ n ≤ buf.length := by
  unfold decodeArrayGo at h
  split at h
  · cases h
  · next len pos heq =>
    have hbd := intGo_false_accepts _ _ _ _ _ _ _ heq
    split_ifs at h with h1 h2
    · cases h; omega
    · have := listGo_bounds d buf hdb len.toNat pos vs n (by omega) h
      omega
  · cases h
  · cases h
  · cases h

theorem arrGo_agree (d d2 : List Nat → Nat → ROut (Option (Value × Nat)))
    (buf rest : List Nat) (idx : Nat) (vs : List Value) (n : Nat)
    (hdb : ∀ p v n2, d (buf ++ rest) p = .ok (some (v, n2)) →
      p < n2 ∧ n2 ≤ (buf ++ rest).length)
    (hagree : ∀ p v n2, d (buf ++ rest) p = .ok (some (v, n2)) → n2 ≤ buf.length →
      d2 buf p = .ok (some (v, n2)))
    (h : decodeArrayGo d (buf ++ rest) idx = .ok (some (vs, n))) (hn : n ≤ buf.length) :
    decodeArrayGo d2 buf idx = .ok (some (vs, n)) := by
  unfold decodeArrayGo at h ⊢
  split at h
  · cases h
  · next len pos heq =>
    have hbd := intGo_false_accepts _ _ _ _ _ _ _ heq
    split_ifs at h with h1 h2
    · cases h
      rw [decode_integer_agree _ _ _ _ _ heq hn]
      simp [h1]
    · have hlb := listGo_bounds d (buf ++ rest) hdb len.toNat pos vs n (by omega) h
      rw [decode_integer_agree _ _ _ _ _ heq (by omega)]
      dsimp only
      rw [if_neg h1, if_neg h2]
      exact listGo_agree d d2 buf rest hdb hagree len.toNat pos vs n h hn
  · cases h
  · cases h
  · cases h

theorem arrGo_front_none (d d2 : List Nat → Nat → ROut (Option (Value × Nat)))
    (buf rest : List Nat) (idx : Nat) (vs : List Value) (n : Nat)
    (hagree : ∀ p v n2, d (buf ++ rest) p = .ok (some (v, n2)) → n2 ≤ buf.length →
      d2 buf p = .ok (some (v, n2)))
    (hfront : ∀ p v n2, d (buf ++ rest) p = .ok (some (v, n2)) → buf.length < n2 →
      d2 buf p = .ok none)
    (h : decodeArrayGo d (buf ++ rest) idx = .ok (some (vs, n))) (hn : buf.length < n) :
    decodeArrayGo d2 buf idx = .ok none := by
  unfold decodeArrayGo at h ⊢
  split at h
  · cases h
  · next len pos heq =>
    have hbd := intGo_false_accepts _ _ _ _ _ _ _ heq
    split_ifs at h with h1 h2
    · cases h
      rw [decode_integer_front_none _ _ _ _ _ heq hn]
    · by_cases hpb : pos ≤ buf.length
      · rw [decode_integer_agree _ _ _ _ _ heq hpb]
        dsimp only
        rw [if_neg h1, if_neg h2]
        exact listGo_front_none d d2 buf rest hagree hfront len.toNat pos vs n hpb h hn
      · rw [decode_integer_front_none _ _ _ _ _ heq (by omega)]
  · cases h
  · cases h
  · cases h

theorem listGo_stable (d d2 : List Nat → Nat → ROut (Option (Value × Nat))) (buf : List Nat)
    (hdb : ∀ p v n, d buf p = .ok (some (v, n)) → p < n ∧ n ≤ buf.length) :
    ∀ (count pos : Nat),
      (∀ p, pos ≤ p → d2 buf p = d buf p) →
      decodeListGo d2 buf pos count = decodeListGo d buf pos count := by
  intro count
  induction count with
  | zero => intro pos hd; rfl
  | succ count ih =>
    intro pos hd
    simp only [decodeListGo]
    rw [hd pos (le_refl _)]
    cases hdp : d buf pos with
    | ok val =>
      rcases val with _ | ⟨v, newPos⟩
      · rfl
      · have hb := hdb _ _ _ hdp
        dsimp only
        rw [ih newPos (fun p hp => hd p (by omega))]
    | fail e => rfl
    | panicked => rfl
    | fuelOut => rfl

theorem arrGo_stable (d d2 : List Nat → Nat → ROut (Option (Value × Nat)))
    (buf : List Nat) (idx : Nat)
    (hdb : ∀ p v n, d buf p = .ok (some (v, n)) → p < n ∧ n ≤ buf.length)
    (hd : ∀ p, idx ≤ p → d2 buf p = d buf p) :
    decodeArrayGo d2 buf idx = decodeArrayGo d buf idx := by
  unfold decodeArrayGo
  cases heq : decode_integer buf idx with
  | ok val =>
    rcases val with _ | ⟨len, pos⟩
    · rfl
    · have hbd := intGo_false_accepts _ _ _ _ _ _ _ heq
      dsimp only
      split_ifs with h1 h2
      · rfl
      · rfl
      · exact listGo_stable d d2 buf hdb len.toNat pos (fun p hp => hd p (by omega))
  | fail e => rfl
  | panicked => rfl
  | fuelOut => rfl

theorem decodeF_bounds :
    ∀ (fuel : Nat) (buf : List Nat) (idx : Nat) (v : Value) (n : Nat),
      decodeF fuel buf idx = .ok (some (v, n)) → idx < n ∧ n ≤ buf.length := by
  intro fuel
  induction fuel with
  | zero =>
    intro buf idx v n h
    exact absurd h (by simp [decodeF])
  | succ fuel ih =>
    intro buf idx v n h
    simp only [decodeF] at h
    split at h
    · cases h
    · next hidx =>
      split at h
      · -- b'$'
        split at h
        · next bs pos hbs =>
          cases h
          have := decode_bulk_string_bounds _ _ _ _ hbs
          omega
        · cases h
        · cases h
        · cases h
        · cases h
      · -- b'*'
        split at h
        · next vs pos harr =>
          cases h
          have := arrGo_bounds _ _ _ _ _ (fun p v2 n2 hh => ih _ _ _ _ hh) harr
          omega
        · cases h
        · cases h
        · cases h
        · cases h
      · -- b':'
        split at h
        · next i pos hi =>
          cases h
          have := decode_integer_bounds _ _ _ _ hi
          omega
        · cases h
        · cases h
        · cases h
        · cases h
      · -- b'+'
        split at h
        · next s pos hs =>
          cases h
          have := decode_string_bounds _ _ _ _ hs
          omega
        · cases h
        · cases h
        · cases h
        · cases h
      · -- b'-'
        split at h
        · next s pos hs =>
          cases h
          have := decode_string_bounds _ _ _ _ hs
          omega
        · cases h
        · cases h
        · cases h
        · cases h
      · cases h

theorem decodeF_stable :
    ∀ (fuel fuel2 : Nat) (buf : List Nat) (idx : Nat),
      buf.length - idx < fuel → buf.length - idx < fuel2 →
      decodeF fuel2 buf idx = decodeF fuel buf idx := by
  intro fuel
  induction fuel with
  | zero => intro fuel2 buf idx h1 h2; omega
  | succ fuel ih =>
    intro fuel2 buf idx h1 h2
    obtain ⟨f2, rfl⟩ : ∃ f2, fuel2 = f2 + 1 := ⟨fuel2 - 1, by omega⟩
    simp only [decodeF]
    split
    · rfl
    · next hidx =>
      split
      · rfl
      · have harr := arrGo_stable (fun b p => decodeF fuel b p) (fun b p => decodeF f2 b p)
          buf (idx + 1)
          (fun p v2 n2 hh => decodeF_bounds _ _ _ _ _ hh)
          (fun p hp => ih f2 buf p (by omega) (by omega))
        rw [harr]
      · rfl
      · rfl
      · rfl
      · rfl

theorem decodeF_agree :
    ∀ (fuel : Nat) (buf rest : List Nat) (idx : Nat) (v : Value) (n : Nat),
      decodeF fuel (buf ++ rest) idx = .ok (some (v, n)) → n ≤ buf.length →
      decodeF fuel buf idx = .ok (some (v, n)) := by
  intro fuel
  induction fuel with
  | zero =>
    intro buf rest idx v n h hn
    exact absurd h (by simp [decodeF])
  | succ fuel ih =>
    intro buf rest idx v n h hn
    have hb := decodeF_bounds (fuel + 1) (buf ++ rest) idx v n h
    have hidxb : idx < buf.length := by omega
    have hpf : idx < (buf ++ rest).length := by simp; omega
    have hbyte : (buf ++ rest)[idx] = buf[idx] :=
      List.getElem_append_left hidxb
    simp only [decodeF] at h ⊢
    rw [dif_neg (by simp; omega : ¬((buf ++ rest).length ≤ idx))] at h
    rw [dif_neg (by omega : ¬(buf.length ≤ idx))]
    rw [hbyte] at h
    split at h
    · next heq =>
      rw [heq]
      split at h
      · next bs pos hbs =>
        cases h
        rw [decode_bulk_string_agree buf rest _ _ _ hbs hn]
      · cases h
      · cases h
      · cases h
      · cases h
    · next heq =>
      rw [heq]
      split at h
      · next vs pos harr =>
        cases h
        rw [arrGo_agree (fun b p => decodeF fuel b p) (fun b p => decodeF fuel b p)
          buf rest (idx + 1) vs n
          (fun p v2 n2 hh => decodeF_bounds _ _ _ _ _ hh)
          (fun p v2 n2 hh hle => ih buf rest p v2 n2 hh hle)
          harr hn]
      · cases h
      · cases h
      · cases h
      · cases h
    · next heq =>
      rw [heq]
      split at h
      · next i pos hi =>
        cases h
        rw [decode_integer_agree buf rest _ _ _ hi hn]
      · cases h
      · cases h
      · cases h
      · cases h
    · next heq =>
      rw [heq]
      split at h
      · next s pos hs =>
        cases h
        rw [decode_string_agree buf rest _ _ _ hs hn]
      · cases h
      · cases h
      · cases h
      · cases h
    · next heq =>
      rw [heq]
      split at h
      · next s pos hs =>
        cases h
        rw [decode_string_agree buf rest _ _ _ hs hn]
      · cases h
      · cases h
      · cases h
      · cases h
    · cases h

theorem decodeF_front_none :
    ∀ (fuel : Nat) (buf rest : List Nat) (idx : Nat) (v : Value) (n : Nat),
      decodeF fuel (buf ++ rest) idx = .ok (some (v, n)) → buf.length < n →
      decodeF fuel buf idx = .ok none := by
  intro fuel
  induction fuel with
  | zero =>
    intro buf rest idx v n h hn
    exact absurd h (by simp [decodeF])
  | succ fuel ih =>
    intro buf rest idx v n h hn
    by_cases hidxb : buf.length ≤ idx
    · simp only [decodeF]
      rw [dif_pos hidxb]
    · have hb := decodeF_bounds (fuel + 1) (buf ++ rest) idx v n h
      have hpf : idx < (buf ++ rest).length := by simp; omega
      have hidxb2 : idx < buf.length := by omega
      have hbyte : (buf ++ rest)[idx] = buf[idx] :=
        List.getElem_append_left hidxb2
      simp only [decodeF] at h ⊢
      rw [dif_neg (by simp; omega : ¬((buf ++ rest).length ≤ idx))] at h
      rw [dif_neg hidxb]
      rw [hbyte] at h
      split at h
      · next heq =>
        rw [heq]
        split at h
        · next bs pos hbs =>
          cases h
          rw [decode_bulk_string_front_none buf rest _ _ _ hbs hn]
        · cases h
        · cases h
        · cases h
        · cases h
      · next heq =>
        rw [heq]
        split at h
        · next vs pos harr =>
          cases h
          rw [arrGo_front_none (fun b p => decodeF fuel b p) (fun b p => decodeF fuel b p)
            buf rest (idx + 1) vs n
            (fun p v2 n2 hh hle => decodeF_agree fuel buf rest p v2 n2 hh hle)
            (fun p v2 n2 hh hlt => ih buf rest p v2 n2 hh hlt)
            harr hn]
        · cases h
        · cases h
        · cases h
        · cases h
      · next heq =>
        rw [heq]
        split at h
        · next i pos hi =>
          cases h
          rw [decode_integer_front_none buf rest _ _ _ hi hn]
        · cases h
        · cases h
        · cases h
        · cases h
      · next heq =>
        rw [heq]
        split at h
        · next s pos hs =>
          cases h
          rw [decode_string_front_none buf rest _ _ _ hs hn]
        · cases h
        · cases h
        · cases h
        · cases h
      · next heq =>
        rw [heq]
        split at h
        · next s pos hs =>
          cases h
          rw [decode_string_front_none buf rest _ _ _ hs hn]
        · cases h
        · cases h
        · cases h
        · cases h
      · cases h

/-- C1: for every input buffer holding only a strict front portion of a
RESP frame -- i.e. some extension of the buffer decodes successfully to a
frame whose byte count exceeds the buffer -- `decode` returns
`Ok(None)` (`NeedMoreData`) and `ValueDecoder::decode` leaves the buffer
exactly as it was, so re-feeding the extended buffer later restarts the
parse from the same position. -/
theorem decoder_strict_front_safety (buf rest : List Nat) (v : Value) (n : Nat)
    (hfull : decode (buf ++ rest) 0 = .ok (some (v, n)))
    (hstrict : buf.length < n) :
    decode buf 0 = .ok none ∧ ValueDecoder.decode buf = (.ok none, buf) := by
  have h1 : decodeF ((buf ++ rest).length + 1) buf 0 = .ok none :=
    decodeF_front_none _ buf rest 0 v n hfull hstrict
  have h2 : decode buf 0 = .ok none := by
    rw [decode,
      decodeF_stable ((buf ++ rest).length + 1) (buf.length + 1) buf 0
        (by simp; omega) (by omega),
      h1]
  refine ⟨h2, ?_⟩
  rw [ValueDecoder.decode, h2]

/-- C1 witness: `+OK\r` is a strict front portion of the frame
`+OK\r\n` (which decodes consuming 5 bytes), so decoding it yields
`Ok(None)` with the buffer untouched. -/
theorem decoder_strict_front_safety_witness :
    ValueDecoder.decode (strBytes "+OK\r") = (.ok none, strBytes "+OK\r") :=
  (decoder_strict_front_safety (strBytes "+OK\r") [10]
    (.simpleString (strBytes "OK")) 5 rfl (by decide)).2

end Rustis
